import Mathlib

/-!
Verification of the xpra shared-memory ring-buffer transport
(`xpra/net/mmap_pipe.py` and the token check in
`xpra/server/source/mmap_connection.py`).

The mmap region is modelled as a total byte map `Int → Nat` together with
the two 32-bit cursor words (`data_start` at bytes [0,4), `data_end` at
bytes [4,8)).  All arithmetic that Python performs on unbounded ints is
done in `Int`; stores into the `c_uint32` cursor words truncate modulo
2^32 (`u32`).
-/

namespace XpraMmap

/-- Truncation performed by a store into a ctypes `c_uint32` field. -/
def u32 (v : Int) : Nat := (v % (2 ^ 32 : Int)).toNat

/-- Write the bytes of `d` into the buffer starting at `pos`
(models `mmap_area.seek(pos); mmap_area.write(d)`). -/
def writeBytes (buf : Int → Nat) (pos : Int) (d : List Nat) : Int → Nat :=
  fun i => if pos ≤ i ∧ i < pos + (d.length : Int) then d.getD (i - pos).toNat 0 else buf i

/-- Read `len` bytes starting at `pos`
(models `mmap_area.seek(pos); mmap_area.read(len)`, and also the zero-copy
ctypes view `(c_char*len).from_buffer(mmap_area, pos)`). -/
def readBytes (buf : Int → Nat) (pos len : Int) : List Nat :=
  (List.range len.toNat).map (fun i : Nat => buf (pos + (i : Int)))

/-- Python slice index normalisation: a negative index counts from the end. -/
def pyIdx (n : Nat) (k : Int) : Nat :=
  if 0 ≤ k then min k.toNat n else n - (-k).toNat

/-- Python slice `d[:k]`. -/
def pySliceTo (d : List Nat) (k : Int) : List Nat := d.take (pyIdx d.length k)

/-- Python slice `d[k:]`. -/
def pySliceFrom (d : List Nat) (k : Int) : List Nat := d.drop (pyIdx d.length k)

/-- The mmap region: its total size `N`, byte contents, and the two cursor
words.  `dataStart` holds the `c_uint32` at offset 0 (read cursor) and
`dataEnd` the `c_uint32` at offset 4 (write cursor). -/
structure MmapArea where
  size : Nat
  buf : Int → Nat
  dataStart : Nat
  dataEnd : Nat

/-- The two failure modes of `mmap_write`: the source logs
"mmap area is too small!" respectively "mmap area is full!" and returns
`None` for the chunk list. -/
inductive MmapWriteErr
  | payloadTooLarge
  | bufferFull
deriving DecidableEq, Repr

/-- The local variable `start = max(8, data_start)` of `mmap_write`
(the clamped read cursor). -/
def specStart (a : MmapArea) : Int := max 8 (a.dataStart : Int)

/-- The local variable `end = max(8, data_end)` of `mmap_write`
(the clamped write cursor). -/
def specEnd (a : MmapArea) : Int := max 8 (a.dataEnd : Int)

/-- The local variable `chunk` of `mmap_write` (what the spec calls
`first_chunk_capacity`): `start - end` in the wrapped state (`end < start`),
`mmap_size - end` otherwise. -/
def specFirstChunk (a : MmapArea) : Int :=
  if specEnd a < specStart a then specStart a - specEnd a else (a.size : Int) - specEnd a

/-- The local variable `available` of `mmap_write`: `start - end` in the
wrapped state, `chunk + (start - 8)` otherwise. -/
def specAvailable (a : MmapArea) : Int :=
  if specEnd a < specStart a then specStart a - specEnd a
  else ((a.size : Int) - specEnd a) + (specStart a - 8)

/-- Shallow embedding of `mmap_write(mmap_area, mmap_size, data)` from
`xpra/net/mmap_pipe.py`.  Returns the chunk descriptor (or the error), the
`mmap_free_size` telemetry value, and the updated area.  The local
variables `start`, `end`, `chunk`, `available` of the source are the
definitions `specStart`, `specEnd`, `specFirstChunk`, `specAvailable`
above.  The Python float comparison `available >= mmap_size/2` is rendered
as `2*available ≥ mmap_size` (exact for these magnitudes). -/
def mmap_write (a : MmapArea) (data : List Nat) :
    Except MmapWriteErr (List (Int × Int)) × Int × MmapArea :=
  let start : Int := specStart a
  let e : Int := specEnd a
  let l : Int := data.length
  let chunk : Int := specFirstChunk a
  let available : Int := specAvailable a
  let mmap_free_size : Int := available - l
  if l > (a.size : Int) - 8 then
    (.error .payloadTooLarge, mmap_free_size, a)
  else if mmap_free_size ≤ 0 then
    (.error .bufferFull, mmap_free_size, a)
  else if l < chunk then
    (.ok [(e, l)], mmap_free_size,
      { a with buf := writeBytes a.buf e data, dataEnd := u32 (e + l) })
  else if 2 * available ≥ (a.size : Int) ∧ available ≥ l * 3 ∧ l < start - 8 then
    (.ok [(8, l)], mmap_free_size,
      { a with buf := writeBytes a.buf 8 data, dataEnd := u32 (8 + l) })
  else
    (.ok [(e, chunk), (8, l - chunk)], mmap_free_size,
      { a with
          buf := writeBytes (writeBytes a.buf e (pySliceTo data chunk)) 8 (pySliceFrom data chunk),
          dataEnd := u32 (8 + (l - chunk)) })

/-- The loop of `mmap_read` over a discontiguous descriptor: each chunk is
copied out and `data_start` is stored after each chunk in turn. -/
def mmap_read_loop : MmapArea → List (Int × Int) → List (List Nat) → List Nat × MmapArea
  | a, [], acc => (acc.flatten, a)
  | a, (offset, length) :: rest, acc =>
      mmap_read_loop { a with dataStart := u32 (offset + length) } rest
        (acc ++ [readBytes a.buf offset length])

/-- Shallow embedding of `mmap_read(mmap_area, *descr_data)` from
`xpra/net/mmap_pipe.py`: a one-chunk descriptor yields a zero-copy view and
stores `data_start = offset+length`; otherwise the chunks are copied and
concatenated, storing `data_start` after each chunk. -/
def mmap_read (a : MmapArea) (descr : List (Int × Int)) : List Nat × MmapArea :=
  match descr with
  | [(offset, length)] =>
      (readBytes a.buf offset length, { a with dataStart := u32 (offset + length) })
  | _ => mmap_read_loop a descr []

/-- Offset+length of the last pair of a descriptor (the value `mmap_read`
leaves in `data_start`). -/
def lastPairEnd (d : List (Int × Int)) : Int :=
  match d.getLast? with
  | some p => p.1 + p.2
  | none => 0

/-- The loop body of `write_mmap_token`: pokes `v % 256` one byte at a time
and shifts `v` right by 8 bits, returning the final buffer and leftover `v`. -/
def write_token_rec : (Int → Nat) → Int → Int → Nat → (Int → Nat) × Int
  | buf, v, _, 0 => (buf, v)
  | buf, v, index, Nat.succ c =>
      write_token_rec (fun j => if j = index then (v % 256).toNat else buf j)
        (v / 256) (index + 1) c

/-- Shallow embedding of `write_mmap_token(mmap_area, token, index, count)`:
fails (assertion) when `count = 0` or when the token does not fit in
`count` bytes (leftover value nonzero after the loop). -/
def write_mmap_token (buf : Int → Nat) (token : Int) (index : Int) (count : Nat) :
    Option (Int → Nat) :=
  if count = 0 then none
  else
    let r := write_token_rec buf token index count
    if r.2 = 0 then some r.1 else none

/-- Shallow embedding of `read_mmap_token(mmap_area, index, count)`:
accumulates `v = (v << 8) + byte(index+count-1-i)` over `i < count`
(the `count > 0` assertion of the source corresponds to the `0 < count`
hypotheses of the theorems below). -/
def read_mmap_token (buf : Int → Nat) (index : Int) (count : Nat) : Int :=
  (List.range count).foldl
    (fun v i => v * 256 + (buf (index + ((count - 1 - i : Nat) : Int)) : Int)) 0

/-- Result of `init_server_mmap`: the mapped area (its mapped length) when
the `mmap` call succeeded, the `actual_mmap_size` value returned, and
whether the size-mismatch warning was logged. -/
structure ServerMmapResult where
  area : Option Nat
  actualSize : Nat
  sizeWarning : Bool
deriving DecidableEq, Repr

/-- Shallow embedding of `init_server_mmap(mmap_filename, mmap_size)`
(POSIX branch) from `xpra/net/mmap_pipe.py`, as a function of the backing
file's actual size and the announced `mmap_size`.  A size mismatch only
logs a warning; the code then calls `mmap.mmap(fd, mmap_size)`, which (per
the documented semantics of Python's `mmap`) maps the whole file when
`mmap_size = 0`, maps `mmap_size` bytes when `mmap_size ≤ actual_size`,
and raises `ValueError` when `mmap_size` exceeds the file size — the
exception handler then returns `(None, 0)`. -/
def init_server_mmap (actual_size mmap_size : Nat) : ServerMmapResult :=
  let warned : Bool := decide (mmap_size ≠ 0 ∧ actual_size ≠ mmap_size)
  if mmap_size ≤ actual_size then
    ⟨some (if mmap_size = 0 then actual_size else mmap_size), actual_size, warned⟩
  else
    ⟨none, 0, warned⟩

/-- The `(self.mmap, self.mmap_size)` pair of `MMAP_Connection` after
`parse_client_caps`. -/
structure MMAPConnState where
  mmap : Option (Int → Nat)
  mmap_size : Nat

/-- Shallow embedding of the token-verification tail of
`MMAP_Connection.parse_client_caps` (`xpra/server/source/mmap_connection.py`),
starting from the state right after `init_server_mmap` returned the area
`buf` with size `msize`.  `mmap_token` is the value the client announced,
`(index, count)` where it claims the token lives, and
`(client_token, client_index)` model the random token the server writes
back on success (`DEFAULT_TOKEN_BYTES = 128`). -/
def parse_client_caps_token (buf : Int → Nat) (msize : Nat) (mmap_token : Int)
    (index : Int) (count : Nat) (min_mmap_size : Nat)
    (client_token : Int) (client_index : Int) : MMAPConnState :=
  if 0 < msize then
    let v := read_mmap_token buf index count
    if v ≠ mmap_token then ⟨none, 0⟩
    else if msize < min_mmap_size then ⟨none, 0⟩
    else ⟨some (write_token_rec buf client_token client_index 128).1, msize⟩
  else ⟨some buf, msize⟩

/-- Protocol state for the single-producer/single-consumer contract: the
region plus the FIFO queue of descriptors returned by `mmap_write` and not
yet released by the consumer. -/
structure RingState where
  area : MmapArea
  live : List (List (Int × Int))

/-- One step of the protocol: either the producer performs a successful
`mmap_write` (its descriptor becomes live), or the consumer releases the
oldest live descriptor by performing the `mmap_read` that consumes it. -/
inductive Step : RingState → RingState → Prop
  | write (st : RingState) (data : List Nat) (chunks : List (Int × Int))
      (h : (mmap_write st.area data).1 = .ok chunks) :
      Step st ⟨(mmap_write st.area data).2.2, st.live ++ [chunks]⟩
  | release (st : RingState) (d : List (Int × Int)) (rest : List (List (Int × Int)))
      (h : st.live = d :: rest) :
      Step st ⟨(mmap_read st.area d).2, rest⟩

/-- States reachable from a freshly created region (cursor words zeroed)
whose byte contents are `buf`. -/
def Reachable (N : Nat) (buf : Int → Nat) (st : RingState) : Prop :=
  Relation.ReflTransGen Step ⟨⟨N, buf, 0, 0⟩, []⟩ st

/-- Little-endian value of `count` bytes starting at `index`
(recursion on the byte count; used to reason about the token codec). -/
def readLE (buf : Int → Nat) (index : Int) : Nat → Int
  | 0 => 0
  | Nat.succ c => (buf index : Int) + 256 * readLE buf (index + 1) c

/-- `chain a b ds`: the descriptors `ds` are all single-pair and tile the
byte range `[a, b)` contiguously, in order. -/
inductive chain : Int → Int → List (List (Int × Int)) → Prop
  | nil (a : Int) : chain a a []
  | cons (a b l : Int) (ds : List (List (Int × Int))) :
      0 ≤ l → chain (a + l) b ds → chain a b ([(a, l)] :: ds)

/-- Ring invariant, unwrapped form: the live descriptors tile `[s, e)`. -/
def InvA (N : Nat) (s e : Int) (live : List (List (Int × Int))) : Prop :=
  chain s e live ∧ e < (N : Int)

/-- Ring invariant, wrapped-by-restart form: `ds1` tile `[s, x)` (the
region `[x, N)` was abandoned by a restart-at-8 write), `ds2` tile
`[8, e)`, and the producer sits strictly below the consumer. -/
def InvBr (N : Nat) (s e : Int) (live : List (List (Int × Int))) : Prop :=
  ∃ x ds1 ds2, live = ds1 ++ ds2 ∧ chain s x ds1 ∧ x < (N : Int) ∧
    chain 8 e ds2 ∧ ds2 ≠ [] ∧ e < s

/-- Ring invariant, wrapped-by-split form: `ds1` tile `[s, x)`, a split
descriptor occupies `[x, N)` and `[8, 8+l2)`, and `ds2` tile `[8+l2, e)`. -/
def InvBs (N : Nat) (s e : Int) (live : List (List (Int × Int))) : Prop :=
  ∃ x l1 l2 ds1 ds2, live = ds1 ++ [(x, l1), (8, l2)] :: ds2 ∧
    chain s x ds1 ∧ x < (N : Int) ∧ 0 < l1 ∧ 0 ≤ l2 ∧ x + l1 = (N : Int) ∧
    chain (8 + l2) e ds2 ∧ e < s

/-- The full ring invariant over a protocol state (cursors taken clamped,
as `mmap_write` does). -/
def Inv (st : RingState) : Prop :=
  8 < st.area.size ∧ st.area.size ≤ 2 ^ 32 ∧
  (InvA st.area.size (specStart st.area) (specEnd st.area) st.live ∨
   InvBr st.area.size (specStart st.area) (specEnd st.area) st.live ∨
   InvBs st.area.size (specStart st.area) (specEnd st.area) st.live)

/-! ### Basic facts about the byte-level primitives -/

lemma writeBytes_in (buf : Int → Nat) (pos : Int) (d : List Nat) (i : Int)
    (h1 : pos ≤ i) (h2 : i < pos + (d.length : Int)) :
    writeBytes buf pos d i = d.getD (i - pos).toNat 0 := by
  simp [writeBytes, h1, h2]

lemma writeBytes_out (buf : Int → Nat) (pos : Int) (d : List Nat) (i : Int)
    (h : i < pos ∨ pos + (d.length : Int) ≤ i) :
    writeBytes buf pos d i = buf i := by
  unfold writeBytes
  have hn : ¬(pos ≤ i ∧ i < pos + (d.length : Int)) := by omega
  simp [hn]

lemma readBytes_congr (buf1 buf2 : Int → Nat) (pos n : Int)
    (h : ∀ i : Int, pos ≤ i → i < pos + n → buf1 i = buf2 i) :
    readBytes buf1 pos n = readBytes buf2 pos n := by
  unfold readBytes
  apply List.map_congr_left
  intro i hi
  rw [List.mem_range] at hi
  apply h
  · omega
  · have h1 : (i : Int) < n.toNat := by exact_mod_cast hi
    have h2 : (n.toNat : Int) ≤ max n 0 := by simp [Int.toNat_le, le_max_iff]
    omega

lemma range_map_getD (d : List Nat) :
    (List.range d.length).map (fun i => d.getD i 0) = d := by
  apply List.ext_getElem
  · simp
  · intro i h1 h2
    simp [List.getD_eq_getElem?_getD, List.getElem?_eq_getElem h2]

lemma readBytes_writeBytes (buf : Int → Nat) (pos : Int) (d : List Nat) :
    readBytes (writeBytes buf pos d) pos (d.length : Int) = d := by
  unfold readBytes
  rw [Int.toNat_natCast]
  have : ∀ i ∈ List.range d.length,
      writeBytes buf pos d (pos + (i : Int)) = d.getD i 0 := by
    intro i hi
    rw [List.mem_range] at hi
    rw [writeBytes_in buf pos d _ (by omega) (by omega)]
    congr 1
    omega
  rw [List.map_congr_left this, range_map_getD]

lemma readBytes_length (buf : Int → Nat) (pos n : Int) :
    (readBytes buf pos n).length = n.toNat := by
  simp [readBytes]

/-! ### Case analysis of `mmap_write` -/

/-- Exhaustive description of `mmap_write`: exactly one of the five source
branches applies, and in each the full result is given. -/
lemma mmap_write_cases (a : MmapArea) (data : List Nat) :
    (mmap_write a data).2.1 = specAvailable a - (data.length : Int) ∧
    (((data.length : Int) > (a.size : Int) - 8 ∧
        mmap_write a data =
          (.error .payloadTooLarge, specAvailable a - data.length, a))
    ∨ ((data.length : Int) ≤ (a.size : Int) - 8 ∧
        specAvailable a - data.length ≤ 0 ∧
        mmap_write a data =
          (.error .bufferFull, specAvailable a - data.length, a))
    ∨ ((data.length : Int) ≤ (a.size : Int) - 8 ∧
        0 < specAvailable a - data.length ∧
        (data.length : Int) < specFirstChunk a ∧
        mmap_write a data =
          (.ok [(specEnd a, data.length)], specAvailable a - data.length,
            { a with buf := writeBytes a.buf (specEnd a) data,
                     dataEnd := u32 (specEnd a + data.length) }))
    ∨ ((data.length : Int) ≤ (a.size : Int) - 8 ∧
        0 < specAvailable a - data.length ∧
        specFirstChunk a ≤ (data.length : Int) ∧
        (2 * specAvailable a ≥ (a.size : Int) ∧
          specAvailable a ≥ (data.length : Int) * 3 ∧
          (data.length : Int) < specStart a - 8) ∧
        mmap_write a data =
          (.ok [(8, data.length)], specAvailable a - data.length,
            { a with buf := writeBytes a.buf 8 data,
                     dataEnd := u32 (8 + data.length) }))
    ∨ ((data.length : Int) ≤ (a.size : Int) - 8 ∧
        0 < specAvailable a - data.length ∧
        specFirstChunk a ≤ (data.length : Int) ∧
        ¬(2 * specAvailable a ≥ (a.size : Int) ∧
          specAvailable a ≥ (data.length : Int) * 3 ∧
          (data.length : Int) < specStart a - 8) ∧
        mmap_write a data =
          (.ok [(specEnd a, specFirstChunk a), (8, data.length - specFirstChunk a)],
            specAvailable a - data.length,
            { a with
                buf := writeBytes (writeBytes a.buf (specEnd a)
                          (pySliceTo data (specFirstChunk a))) 8
                          (pySliceFrom data (specFirstChunk a)),
                dataEnd := u32 (8 + ((data.length : Int) - specFirstChunk a)) }))) := by
  unfold mmap_write
  dsimp only
  split_ifs with h1 h2 h3 h4
  · exact ⟨rfl, Or.inl ⟨h1, rfl⟩⟩
  · exact ⟨rfl, Or.inr (Or.inl ⟨by omega, h2, rfl⟩)⟩
  · exact ⟨rfl, Or.inr (Or.inr (Or.inl ⟨by omega, by omega, h3, rfl⟩))⟩
  · exact ⟨rfl, Or.inr (Or.inr (Or.inr (Or.inl ⟨by omega, by omega, by omega, h4, rfl⟩)))⟩
  · exact ⟨rfl, Or.inr (Or.inr (Or.inr (Or.inr ⟨by omega, by omega, by omega, h4, rfl⟩)))⟩

/-! ### `mmap_read` state effect -/

lemma mmap_read_loop_state (ds : List (Int × Int)) :
    ∀ (a : MmapArea) (acc : List (List Nat)), ds ≠ [] →
      (mmap_read_loop a ds acc).2 = { a with dataStart := u32 (lastPairEnd ds) } := by
  induction ds with
  | nil => intro a acc h; exact absurd rfl h
  | cons p rest ih =>
      intro a acc _
      obtain ⟨o, l⟩ := p
      cases rest with
      | nil => simp [mmap_read_loop, lastPairEnd]
      | cons q t =>
          rw [show mmap_read_loop a ((o, l) :: q :: t) acc =
            mmap_read_loop { a with dataStart := u32 (o + l) } (q :: t)
              (acc ++ [readBytes a.buf o l]) from rfl]
          rw [ih _ _ (by simp)]
          simp [lastPairEnd]

lemma mmap_read_state (a : MmapArea) (d : List (Int × Int)) (h : d ≠ []) :
    (mmap_read a d).2 = { a with dataStart := u32 (lastPairEnd d) } := by
  match d with
  | [(o, l)] => simp [mmap_read, lastPairEnd]
  | (o, l) :: q :: t =>
      rw [show mmap_read a ((o, l) :: q :: t) = mmap_read_loop a ((o, l) :: q :: t) [] from rfl]
      exact mmap_read_loop_state _ _ _ (by simp)

/-! ### Claim C4: free-space accounting of `mmap_write` -/

/-- C4 (confirmed): `mmap_write` clamps `start = max(8, data_start)` and
`end = max(8, data_end)`; when `end < start` it sets
`first_chunk_capacity = available = start - end`, and otherwise
`first_chunk_capacity = N - end` and
`available = first_chunk_capacity + (start - 8)`.  The returned
`mmap_free_size` telemetry exposes this accounting as `available - len(data)`. -/
theorem claim_C4 (a : MmapArea) (data : List Nat) :
    specStart a = max 8 (a.dataStart : Int) ∧
    specEnd a = max 8 (a.dataEnd : Int) ∧
    (specEnd a < specStart a →
      specFirstChunk a = specStart a - specEnd a ∧
      specAvailable a = specStart a - specEnd a) ∧
    (¬ specEnd a < specStart a →
      specFirstChunk a = (a.size : Int) - specEnd a ∧
      specAvailable a = specFirstChunk a + (specStart a - 8)) ∧
    (mmap_write a data).2.1 = specAvailable a - (data.length : Int) := by
  refine ⟨rfl, rfl, ?_, ?_, (mmap_write_cases a data).1⟩
  · intro h
    constructor <;> simp [specFirstChunk, specAvailable, h]
  · intro h
    constructor <;> simp [specFirstChunk, specAvailable, h]

theorem claim_C4_witness :
    ¬ specEnd ⟨100, fun _ => 0, 50, 95⟩ < specStart ⟨100, fun _ => 0, 50, 95⟩ ∧
    specFirstChunk ⟨100, fun _ => 0, 50, 95⟩ =
      ((100 : Nat) : Int) - specEnd ⟨100, fun _ => 0, 50, 95⟩ ∧
    (mmap_write ⟨100, fun _ => 0, 50, 95⟩ (List.replicate 20 0)).2.1 =
      specAvailable ⟨100, fun _ => 0, 50, 95⟩ - 20 := by
  have h := claim_C4 ⟨100, fun _ => 0, 50, 95⟩ (List.replicate 20 0)
  exact ⟨by decide, (h.2.2.2.1 (by decide)).1, h.2.2.2.2⟩

/-! ### Claim C1: success condition of `mmap_write` -/

/-- C1 counterexample: with `N = 100` and an empty buffer (cursors at 8),
a payload of length 92 satisfies `L ≤ N - 8` and `available = 92 ≥ L`,
yet `mmap_write` fails with `BufferFullError` — refuting the claimed
"succeeds iff `L ≤ N - 8` and free space available `≥ L`"
(the code requires `available - L > 0`, i.e. strictly more free space
than the payload length). -/
theorem claim_C1_cex :
    (92 : Int) ≤ ((100 : Nat) : Int) - 8 ∧
    (92 : Int) ≤ specAvailable ⟨100, fun _ => 0, 8, 8⟩ ∧
    (mmap_write ⟨100, fun _ => 0, 8, 8⟩ (List.replicate 92 0)).1 =
      .error .bufferFull := by
  refine ⟨by decide, by decide, ?_⟩
  rfl

/-- C1 (amended): `mmap_write` succeeds iff `L ≤ N - 8` and the free space
`available` is strictly greater than `L` (the code rejects
`available - L ≤ 0`); when `L > N - 8` it fails with the
payload-too-large error, when `L ≤ N - 8` but `available - L ≤ 0` it
fails with the buffer-full error, and on any failure it returns the area
completely unchanged (no payload bytes written, `data_end` untouched). -/
theorem claim_C1 (a : MmapArea) (data : List Nat) :
    ((∃ chunks, (mmap_write a data).1 = .ok chunks) ↔
      ((data.length : Int) ≤ (a.size : Int) - 8 ∧
        (data.length : Int) < specAvailable a)) ∧
    ((data.length : Int) > (a.size : Int) - 8 →
      (mmap_write a data).1 = .error .payloadTooLarge) ∧
    ((data.length : Int) ≤ (a.size : Int) - 8 →
      specAvailable a - (data.length : Int) ≤ 0 →
      (mmap_write a data).1 = .error .bufferFull) ∧
    (∀ err, (mmap_write a data).1 = .error err → (mmap_write a data).2.2 = a) := by
  rcases (mmap_write_cases a data).2 with
    ⟨h1, he⟩ | ⟨h1, h2, he⟩ | ⟨h1, h2, h3, he⟩ | ⟨h1, h2, h3, h4, he⟩ | ⟨h1, h2, h3, h4, he⟩ <;>
    rw [he] <;> dsimp <;>
    refine ⟨?_, ?_, ?_, ?_⟩
  · constructor
    · rintro ⟨c, hc⟩; cases hc
    · rintro ⟨hl, hv⟩; exact absurd hl (by omega)
  · intro _; rfl
  · intro hx _; exact absurd hx (by omega)
  · intro err _; rfl
  · constructor
    · rintro ⟨c, hc⟩; cases hc
    · rintro ⟨hl, hv⟩; exact absurd hv (by omega)
  · intro h; exact absurd h (by omega)
  · intro _ _; rfl
  · intro err _; rfl
  · exact ⟨fun _ => ⟨by omega, by omega⟩, fun _ => ⟨_, rfl⟩⟩
  · intro h; exact absurd h (by omega)
  · intro _ h; exact absurd h (by omega)
  · intro err h; cases h
  · exact ⟨fun _ => ⟨by omega, by omega⟩, fun _ => ⟨_, rfl⟩⟩
  · intro h; exact absurd h (by omega)
  · intro _ h; exact absurd h (by omega)
  · intro err h; cases h
  · exact ⟨fun _ => ⟨by omega, by omega⟩, fun _ => ⟨_, rfl⟩⟩
  · intro h; exact absurd h (by omega)
  · intro _ h; exact absurd h (by omega)
  · intro err h; cases h

theorem claim_C1_witness :
    (mmap_write ⟨100, fun _ => 0, 8, 8⟩ (List.replicate 93 0)).1 =
      .error .payloadTooLarge := by
  exact (claim_C1 ⟨100, fun _ => 0, 8, 8⟩ (List.replicate 93 0)).2.1 (by decide)

/-! ### Claim C8: size check of `init_server_mmap` -/

/-- C8 counterexample: announcing 64 MiB for a 128 MiB file is a size
mismatch, yet `init_server_mmap` returns a usable mapped region (it only
logs a warning) — refuting "fails with SizeMismatchError whenever the
actual size differs from the expected size". -/
theorem claim_C8_cex :
    (64 * 1024 * 1024 : Nat) ≠ 128 * 1024 * 1024 ∧
    (init_server_mmap (128 * 1024 * 1024) (64 * 1024 * 1024)).area =
      some (64 * 1024 * 1024) ∧
    (init_server_mmap (128 * 1024 * 1024) (64 * 1024 * 1024)).actualSize =
      128 * 1024 * 1024 := by
  refine ⟨by decide, ?_, ?_⟩ <;> rfl

/-- C8 (amended): a size mismatch between the announced and actual region
size only triggers a logged warning; the region is still mapped (using the
announced length) and returned together with the actual size.  The call
fails — returning no area and size 0 — exactly when the announced size
exceeds the actual file size, because the underlying `mmap` call itself
raises. -/
theorem claim_C8 (actual expected : Nat) :
    ((init_server_mmap actual expected).sizeWarning = true ↔
      (expected ≠ 0 ∧ actual ≠ expected)) ∧
    ((init_server_mmap actual expected).area.isSome = true ↔ expected ≤ actual) ∧
    (expected ≤ actual → (init_server_mmap actual expected).actualSize = actual) ∧
    (actual < expected → (init_server_mmap actual expected).area = none ∧
      (init_server_mmap actual expected).actualSize = 0) := by
  by_cases h : expected ≤ actual
  · have he : init_server_mmap actual expected =
        ⟨some (if expected = 0 then actual else expected), actual,
          decide (expected ≠ 0 ∧ actual ≠ expected)⟩ := by
      unfold init_server_mmap
      dsimp only
      rw [if_pos h]
    rw [he]
    refine ⟨by simp, by simpa using h, fun _ => rfl, fun hc => absurd h (by omega)⟩
  · have he : init_server_mmap actual expected =
        ⟨none, 0, decide (expected ≠ 0 ∧ actual ≠ expected)⟩ := by
      unfold init_server_mmap
      dsimp only
      rw [if_neg h]
    rw [he]
    refine ⟨by simp, by simpa using h, fun hc => absurd hc h, fun _ => ⟨rfl, rfl⟩⟩

theorem claim_C8_witness :
    (init_server_mmap 64 128).area = none ∧
    (init_server_mmap 64 128).actualSize = 0 := by
  exact (claim_C8 64 128).2.2.2 (by decide)

/-! ### Claim C9: token rejection in `parse_client_caps` -/

/-- C9 (confirmed): when the token read back from the region differs from
the announced token value, `parse_client_caps` closes the mapping: the
stored mmap becomes `None` and the recorded mmap size becomes 0, so the
channel fails closed. -/
theorem claim_C9 (buf : Int → Nat) (msize : Nat) (mmap_token : Int) (index : Int)
    (count : Nat) (min_mmap_size : Nat) (client_token client_index : Int)
    (hsz : 0 < msize)
    (hne : read_mmap_token buf index count ≠ mmap_token) :
    parse_client_caps_token buf msize mmap_token index count min_mmap_size
      client_token client_index = ⟨none, 0⟩ := by
  unfold parse_client_caps_token
  simp [hsz, hne]

theorem claim_C9_witness :
    parse_client_caps_token (fun _ => 0) 1 1 0 1 0 0 0 = ⟨none, 0⟩ := by
  exact claim_C9 (fun _ => 0) 1 1 0 1 0 0 0 (by decide) (by decide)

/-! ### Claim C10: `mmap_read` itself advances `data_start` -/

/-- C10 (confirmed): every `mmap_read` advances `data_start` itself.  For a
one-pair descriptor it stores `data_start = offset + length` (truncated to
32 bits) while returning the zero-copy view; for a two-pair descriptor the
loop stores `data_start = offset + length` of each pair in turn — the
first pair's end before reading the second chunk — ending at the last
pair.  There is no separate release step. -/
theorem claim_C10 :
    (∀ (a : MmapArea) (o l : Int),
      mmap_read a [(o, l)] =
        (readBytes a.buf o l, { a with dataStart := u32 (o + l) })) ∧
    (∀ (a : MmapArea) (o1 l1 o2 l2 : Int),
      mmap_read_loop a [(o1, l1), (o2, l2)] [] =
        mmap_read_loop { a with dataStart := u32 (o1 + l1) } [(o2, l2)]
          [readBytes a.buf o1 l1]) ∧
    (∀ (a : MmapArea) (o1 l1 o2 l2 : Int),
      mmap_read a [(o1, l1), (o2, l2)] =
        (readBytes a.buf o1 l1 ++ readBytes a.buf o2 l2,
          { a with dataStart := u32 (o2 + l2) })) := by
  refine ⟨fun a o l => rfl, fun a o1 l1 o2 l2 => rfl, fun a o1 l1 o2 l2 => ?_⟩
  show mmap_read_loop a [(o1, l1), (o2, l2)] [] = _
  simp [mmap_read_loop]

/-! ### Claim C6: release semantics and (non-)monotonicity -/

/-- C6 counterexample: release descriptor `[(8,10)]` (data_start = 18),
then `[(18,10)]` (data_start = 28), then the superseded `[(8,10)]` again:
`data_start` rewinds to 18 < 28 — the code does not monotonically track
the furthest release. -/
theorem claim_C6_cex :
    ((mmap_read ((mmap_read ⟨100, fun _ => 0, 0, 0⟩ [(8, 10)]).2)
        [(18, 10)]).2).dataStart = 28 ∧
    ((mmap_read ((mmap_read ((mmap_read ⟨100, fun _ => 0, 0, 0⟩ [(8, 10)]).2)
        [(18, 10)]).2) [(8, 10)]).2).dataStart = 18 ∧
    (18 : Nat) < 28 := by
  refine ⟨rfl, rfl, by decide⟩

/-- C6 (amended): a release (the `data_start` update performed by
`mmap_read`) sets `data_start` to `offset + length` of the last pair of
the descriptor, unconditionally; releasing the same descriptor twice in
succession is idempotent, but releasing an already-superseded descriptor
rewinds `data_start` to that descriptor's endpoint rather than keeping the
furthest release. -/
theorem claim_C6 :
    (∀ (a : MmapArea) (d : List (Int × Int)), d ≠ [] →
      (mmap_read a d).2 = { a with dataStart := u32 (lastPairEnd d) }) ∧
    (∀ (a : MmapArea) (d : List (Int × Int)), d ≠ [] →
      (mmap_read (mmap_read a d).2 d).2 = (mmap_read a d).2) := by
  refine ⟨mmap_read_state, fun a d h => ?_⟩
  rw [mmap_read_state _ _ h, mmap_read_state _ _ h]

/-! ### Slice, cast and two-chunk-read helpers -/

lemma u32_cast (v : Int) (h0 : 0 ≤ v) (h1 : v < 2 ^ 32) :
    ((u32 v : Nat) : Int) = v := by
  unfold u32
  rw [Int.emod_eq_of_lt h0 (by exact_mod_cast h1), Int.toNat_of_nonneg h0]

lemma pySliceTo_length (data : List Nat) (k : Int) (h0 : 0 ≤ k)
    (h1 : k ≤ (data.length : Int)) :
    ((pySliceTo data k).length : Int) = k := by
  unfold pySliceTo pyIdx
  rw [if_pos h0]
  simp only [List.length_take]
  have : k.toNat ≤ data.length := by omega
  rw [Int.toNat_of_nonneg h0 |>.symm]
  congr 1
  omega

lemma pySliceFrom_length (data : List Nat) (k : Int) (h0 : 0 ≤ k)
    (h1 : k ≤ (data.length : Int)) :
    ((pySliceFrom data k).length : Int) = (data.length : Int) - k := by
  unfold pySliceFrom pyIdx
  rw [if_pos h0]
  simp only [List.length_drop]
  omega

lemma pySlice_append (data : List Nat) (k : Int) :
    pySliceTo data k ++ pySliceFrom data k = data :=
  List.take_append_drop _ _

lemma mmap_read_two (a : MmapArea) (o1 l1 o2 l2 : Int) :
    mmap_read a [(o1, l1), (o2, l2)] =
      (readBytes a.buf o1 l1 ++ readBytes a.buf o2 l2,
        { a with dataStart := u32 (o2 + l2) }) := by
  show mmap_read_loop a [(o1, l1), (o2, l2)] [] = _
  simp [mmap_read_loop]

/-! ### Claim C7: token serialization round-trip -/

lemma wtr_frame (c : Nat) : ∀ (buf : Int → Nat) (v idx : Int) (j : Int), j < idx →
    (write_token_rec buf v idx c).1 j = buf j := by
  induction c with
  | zero => intro buf v idx j _; rfl
  | succ c ih =>
      intro buf v idx j h
      rw [show write_token_rec buf v idx (Nat.succ c) =
        write_token_rec (fun k => if k = idx then (v % 256).toNat else buf k)
          (v / 256) (idx + 1) c from rfl]
      rw [ih _ _ _ _ (by omega)]
      simp [show j ≠ idx from by omega]

lemma wtr_leftover (c : Nat) : ∀ (buf : Int → Nat) (v idx : Int),
    0 ≤ v → v < (256 : Int) ^ c → (write_token_rec buf v idx c).2 = 0 := by
  induction c with
  | zero =>
      intro buf v idx h0 h1
      have h2 : v < 1 := by simpa using h1
      have : v = 0 := by omega
      simp [write_token_rec, this]
  | succ c ih =>
      intro buf v idx h0 h1
      rw [show write_token_rec buf v idx (Nat.succ c) =
        write_token_rec (fun k => if k = idx then (v % 256).toNat else buf k)
          (v / 256) (idx + 1) c from rfl]
      apply ih
      · exact Int.ediv_nonneg h0 (by norm_num)
      · apply Int.ediv_lt_of_lt_mul (by norm_num)
        calc v < (256 : Int) ^ (c + 1) := h1
          _ = (256 : Int) ^ c * 256 := by ring

lemma wtr_read (c : Nat) : ∀ (buf : Int → Nat) (v idx : Int),
    0 ≤ v → v < (256 : Int) ^ c →
    readLE (write_token_rec buf v idx c).1 idx c = v := by
  induction c with
  | zero =>
      intro buf v idx h0 h1
      have h2 : v < 1 := by simpa using h1
      have : v = 0 := by omega
      simp [readLE, this]
  | succ c ih =>
      intro buf v idx h0 h1
      rw [show write_token_rec buf v idx (Nat.succ c) =
        write_token_rec (fun k => if k = idx then (v % 256).toNat else buf k)
          (v / 256) (idx + 1) c from rfl]
      rw [show readLE (write_token_rec (fun k => if k = idx then (v % 256).toNat else buf k)
            (v / 256) (idx + 1) c).1 idx (Nat.succ c) =
          ((write_token_rec (fun k => if k = idx then (v % 256).toNat else buf k)
            (v / 256) (idx + 1) c).1 idx : Int) +
          256 * readLE (write_token_rec (fun k => if k = idx then (v % 256).toNat else buf k)
            (v / 256) (idx + 1) c).1 (idx + 1) c from rfl]
      rw [wtr_frame c _ _ _ idx (by omega)]
      rw [ih _ _ _ (Int.ediv_nonneg h0 (by norm_num))
        (by
          apply Int.ediv_lt_of_lt_mul (by norm_num)
          calc v < (256 : Int) ^ (c + 1) := h1
            _ = (256 : Int) ^ c * 256 := by ring)]
      rw [if_pos rfl]
      rw [Int.toNat_of_nonneg (Int.emod_nonneg v (by norm_num : (256 : Int) ≠ 0))]
      omega

lemma int_ediv_pow_succ (v : Int) (h : 0 ≤ v) (j : Nat) :
    v / 256 / (256 : Int) ^ j = v / (256 : Int) ^ (j + 1) := by
  lift v to Nat using h
  have key : (v / (256 * 256 ^ j) : Nat) = (v / 256 / 256 ^ j : Nat) := by
    rw [Nat.div_div_eq_div_mul]
  have e1 : ((256 : Int)) ^ j = (((256 ^ j : Nat)) : Int) := by push_cast; ring_nf
  have e2 : ((256 : Int)) ^ (j + 1) = (((256 ^ (j + 1) : Nat)) : Int) := by push_cast; ring_nf
  rw [e1, e2]
  rw [show (256 : Int) = ((256 : Nat) : Int) from rfl]
  rw [← Int.ofNat_ediv, ← Int.ofNat_ediv, ← Int.ofNat_ediv]
  rw [← key]
  congr 2
  rw [pow_succ]
  ring

lemma wtr_byte (c : Nat) : ∀ (buf : Int → Nat) (v idx : Int) (j : Nat),
    0 ≤ v → j < c →
    ((write_token_rec buf v idx c).1 (idx + (j : Int)) : Int) =
      (v / (256 : Int) ^ j) % 256 := by
  induction c with
  | zero => intro _ _ _ j _ h; exact absurd h (Nat.not_lt_zero j)
  | succ c ih =>
      intro buf v idx j h0 hj
      rw [show write_token_rec buf v idx (Nat.succ c) =
        write_token_rec (fun k => if k = idx then (v % 256).toNat else buf k)
          (v / 256) (idx + 1) c from rfl]
      cases j with
      | zero =>
          rw [show idx + ((0 : Nat) : Int) = idx from by push_cast; ring]
          rw [wtr_frame c _ _ _ idx (by omega)]
          simp [Int.toNat_of_nonneg (Int.emod_nonneg v (by norm_num : (256:Int) ≠ 0))]
      | succ j =>
          rw [show idx + ((Nat.succ j : Nat) : Int) = (idx + 1) + (j : Int) from by
            push_cast; ring]
          rw [ih _ _ _ j (Int.ediv_nonneg h0 (by norm_num)) (by omega)]
          rw [int_ediv_pow_succ v h0 j]

lemma read_foldl (buf : Int → Nat) (c : Nat) : ∀ (idx : Int) (a : Int),
    (List.range c).foldl
      (fun v i => v * 256 + (buf (idx + ((c - 1 - i : Nat) : Int)) : Int)) a
      = a * (256 : Int) ^ c + readLE buf idx c := by
  induction c with
  | zero => intro idx a; simp [readLE]
  | succ c ih =>
      intro idx a
      rw [List.range_succ, List.foldl_append]
      rw [List.foldl_ext
        (fun v i => v * 256 + (buf (idx + ((c + 1 - 1 - i : Nat) : Int)) : Int))
        (fun v i => v * 256 + (buf ((idx + 1) + ((c - 1 - i : Nat) : Int)) : Int))
        a (by
          intro b i hi
          rw [List.mem_range] at hi
          dsimp only
          have e1 : (c + 1 - 1 - i : Nat) = (c - 1 - i) + 1 := by omega
          rw [e1]
          congr 2
          push_cast
          ring_nf)]
      rw [ih (idx + 1) a]
      rw [show readLE buf idx (Nat.succ c) =
        (buf idx : Int) + 256 * readLE buf (idx + 1) c from rfl]
      have e2 : (c + 1 - 1 - c : Nat) = 0 := by omega
      simp only [List.foldl_cons, List.foldl_nil, e2]
      push_cast
      ring_nf

lemma read_eq_readLE (buf : Int → Nat) (idx : Int) (c : Nat) :
    read_mmap_token buf idx c = readLE buf idx c := by
  unfold read_mmap_token
  rw [read_foldl buf c idx 0]
  ring

/-- C7 (confirmed): for every `0 ≤ v < 256^count` (with `count > 0`),
`write_mmap_token` succeeds, writing the token one byte at a time with the
least-significant byte first (byte `j` of the buffer holds
`(v >> 8j) mod 256`, independent of platform endianness), and
`read_mmap_token` recovers exactly `v`. -/
theorem claim_C7 (buf : Int → Nat) (token idx : Int) (count : Nat)
    (hc : 0 < count) (h0 : 0 ≤ token) (hlt : token < (256 : Int) ^ count) :
    ∃ buf2, write_mmap_token buf token idx count = some buf2 ∧
      read_mmap_token buf2 idx count = token ∧
      ∀ j : Nat, j < count →
        (buf2 (idx + (j : Int)) : Int) = (token / (256 : Int) ^ j) % 256 := by
  refine ⟨(write_token_rec buf token idx count).1, ?_, ?_, ?_⟩
  · unfold write_mmap_token
    rw [if_neg (by omega)]
    simp [wtr_leftover count buf token idx h0 hlt]
  · rw [read_eq_readLE, wtr_read count buf token idx h0 hlt]
  · intro j hj
    exact wtr_byte count buf token idx j h0 hj

theorem claim_C7_witness :
    ∃ buf2, write_mmap_token (fun _ => 0) 300 5 2 = some buf2 ∧
      read_mmap_token buf2 5 2 = 300 ∧
      ∀ j : Nat, j < 2 →
        (buf2 (5 + (j : Int)) : Int) = ((300 : Int) / (256 : Int) ^ j) % 256 :=
  claim_C7 (fun _ => 0) 300 5 2 (by decide) (by decide) (by norm_num)

/-! ### Claim C2: write/read round-trip -/

/-- C2 (confirmed): for every payload accepted by `mmap_write` (on a region
with a valid write cursor), reading the returned chunk descriptor back
with `mmap_read` reconstructs the payload byte-for-byte — both for a
one-pair (contiguous or restarted) descriptor and for a two-pair split
descriptor, whose two ranges are concatenated in descriptor order. -/
theorem claim_C2 (a : MmapArea) (data : List Nat) (chunks : List (Int × Int))
    (hsz8 : 8 ≤ a.size) (hde : a.dataEnd ≤ a.size)
    (h : (mmap_write a data).1 = .ok chunks) :
    (mmap_read (mmap_write a data).2.2 chunks).1 = data := by
  have hE8 : (8 : Int) ≤ specEnd a := le_max_left _ _
  have hS8 : (8 : Int) ≤ specStart a := le_max_left _ _
  have hEsz : specEnd a ≤ (a.size : Int) := by
    unfold specEnd
    have h1 : (8 : Int) ≤ (a.size : Int) := by exact_mod_cast hsz8
    have h2 : (a.dataEnd : Int) ≤ (a.size : Int) := by exact_mod_cast hde
    exact max_le h1 h2
  rcases (mmap_write_cases a data).2 with
    ⟨h1, he⟩ | ⟨h1, h2, he⟩ | ⟨h1, h2, h3, he⟩ | ⟨h1, h2, h3, h4, he⟩ | ⟨h1, h2, h3, h4, he⟩
  · rw [he] at h; cases h
  · rw [he] at h; cases h
  · rw [he] at h
    injection h with h
    subst h
    rw [he]
    exact readBytes_writeBytes a.buf (specEnd a) data
  · rw [he] at h
    injection h with h
    subst h
    rw [he]
    exact readBytes_writeBytes a.buf 8 data
  · rw [he] at h
    injection h with h
    subst h
    rw [he]
    dsimp only
    rw [mmap_read_two]
    dsimp only
    -- the split case only happens in the non-wrapped state
    have hw : ¬ specEnd a < specStart a := by
      intro hlt
      have hc : specFirstChunk a = specStart a - specEnd a := by
        unfold specFirstChunk; rw [if_pos hlt]
      have hv : specAvailable a = specStart a - specEnd a := by
        unfold specAvailable; rw [if_pos hlt]
      omega
    have hc : specFirstChunk a = (a.size : Int) - specEnd a := by
      unfold specFirstChunk; rw [if_neg hw]
    have hv : specAvailable a = ((a.size : Int) - specEnd a) + (specStart a - 8) := by
      unfold specAvailable; rw [if_neg hw]
    have hcnn : 0 ≤ specFirstChunk a := by omega
    have hcle : specFirstChunk a ≤ (data.length : Int) := h3
    have hlnn : (0 : Int) ≤ (data.length : Int) := Int.natCast_nonneg _
    have hd1len : ((pySliceTo data (specFirstChunk a)).length : Int) = specFirstChunk a :=
      pySliceTo_length data _ hcnn hcle
    have hd2len : ((pySliceFrom data (specFirstChunk a)).length : Int) =
        (data.length : Int) - specFirstChunk a :=
      pySliceFrom_length data _ hcnn hcle
    -- the low chunk [8, 8+l2) lies strictly below the read cursor, hence below end
    have hlow : 8 + ((data.length : Int) - specFirstChunk a) ≤ specEnd a := by omega
    -- first range: the second write does not touch [end, end+chunk)
    have hfst : readBytes
        (writeBytes (writeBytes a.buf (specEnd a) (pySliceTo data (specFirstChunk a))) 8
          (pySliceFrom data (specFirstChunk a)))
        (specEnd a) (specFirstChunk a) =
        pySliceTo data (specFirstChunk a) := by
      rw [readBytes_congr _
        (writeBytes a.buf (specEnd a) (pySliceTo data (specFirstChunk a)))
        (specEnd a) (specFirstChunk a) ?_]
      · have hrb := readBytes_writeBytes a.buf (specEnd a)
          (pySliceTo data (specFirstChunk a))
        rwa [hd1len] at hrb
      · intro i hi1 hi2
        apply writeBytes_out
        right
        omega
    -- second range: read back the second write itself
    have hsnd : readBytes
        (writeBytes (writeBytes a.buf (specEnd a) (pySliceTo data (specFirstChunk a))) 8
          (pySliceFrom data (specFirstChunk a)))
        8 ((data.length : Int) - specFirstChunk a) =
        pySliceFrom data (specFirstChunk a) := by
      have hrb := readBytes_writeBytes
        (writeBytes a.buf (specEnd a) (pySliceTo data (specFirstChunk a))) 8
        (pySliceFrom data (specFirstChunk a))
      rwa [hd2len] at hrb
    rw [hfst, hsnd, pySlice_append]

theorem claim_C2_witness :
    (mmap_read (mmap_write ⟨16, fun _ => 0, 8, 8⟩ [1, 2, 3]).2.2 [(8, 3)]).1 =
      [1, 2, 3] := by
  exact claim_C2 ⟨16, fun _ => 0, 8, 8⟩ [1, 2, 3] [(8, 3)]
    (by decide) (by decide) (by rfl)

/-! ### Claim C3: placement decision of a successful write -/

/-- C3 (confirmed): a successful `mmap_write` of a payload of length `L`
follows exactly the three-way placement decision: contiguous at `end` when
`L < first_chunk_capacity` (new `data_end = end + L`); restart at offset 8
when additionally `2·available ≥ N`, `available ≥ 3L` and `L < start - 8`
(new `data_end = 8 + L`); otherwise split into
`[(end, first_chunk_capacity), (8, L - first_chunk_capacity)]`
(new `data_end = 8 + (L - first_chunk_capacity)`). -/
theorem claim_C3 (a : MmapArea) (data : List Nat) (chunks : List (Int × Int))
    (hsz : a.size ≤ 2 ^ 32) (hds : a.dataStart < 2 ^ 32)
    (h : (mmap_write a data).1 = .ok chunks) :
    ((data.length : Int) < specFirstChunk a →
      chunks = [(specEnd a, (data.length : Int))] ∧
      (((mmap_write a data).2.2.dataEnd : Nat) : Int) =
        specEnd a + (data.length : Int)) ∧
    (¬ (data.length : Int) < specFirstChunk a →
      (2 * specAvailable a ≥ (a.size : Int) ∧
        specAvailable a ≥ (data.length : Int) * 3 ∧
        (data.length : Int) < specStart a - 8) →
      chunks = [(8, (data.length : Int))] ∧
      (((mmap_write a data).2.2.dataEnd : Nat) : Int) = 8 + (data.length : Int)) ∧
    (¬ (data.length : Int) < specFirstChunk a →
      ¬ (2 * specAvailable a ≥ (a.size : Int) ∧
        specAvailable a ≥ (data.length : Int) * 3 ∧
        (data.length : Int) < specStart a - 8) →
      chunks = [(specEnd a, specFirstChunk a),
                (8, (data.length : Int) - specFirstChunk a)] ∧
      (((mmap_write a data).2.2.dataEnd : Nat) : Int) =
        8 + ((data.length : Int) - specFirstChunk a)) := by
  have hE8 : (8 : Int) ≤ specEnd a := le_max_left _ _
  have hS8 : (8 : Int) ≤ specStart a := le_max_left _ _
  have hSlt : specStart a < 2 ^ 32 := by
    apply max_lt (by norm_num)
    exact_mod_cast hds
  have hszI : (a.size : Int) ≤ 2 ^ 32 := by exact_mod_cast hsz
  have hlnn : (0 : Int) ≤ (data.length : Int) := Int.natCast_nonneg _
  rcases (mmap_write_cases a data).2 with
    ⟨h1, he⟩ | ⟨h1, h2, he⟩ | ⟨h1, h2, h3, he⟩ | ⟨h1, h2, h3, h4, he⟩ | ⟨h1, h2, h3, h4, he⟩
  · rw [he] at h; cases h
  · rw [he] at h; cases h
  · rw [he] at h
    injection h with h
    subst h
    refine ⟨fun _ => ⟨rfl, ?_⟩, fun hcon _ => absurd h3 (by omega),
      fun hcon _ => absurd h3 (by omega)⟩
    rw [he]
    dsimp only
    apply u32_cast
    · omega
    · by_cases hw : specEnd a < specStart a
      · have hc : specFirstChunk a = specStart a - specEnd a := by
          unfold specFirstChunk; rw [if_pos hw]
        omega
      · have hc : specFirstChunk a = (a.size : Int) - specEnd a := by
          unfold specFirstChunk; rw [if_neg hw]
        omega
  · rw [he] at h
    injection h with h
    subst h
    refine ⟨fun hlt => absurd hlt (by omega), fun _ _ => ⟨rfl, ?_⟩,
      fun _ hcon => absurd h4 hcon⟩
    rw [he]
    dsimp only
    apply u32_cast
    · omega
    · omega
  · rw [he] at h
    injection h with h
    subst h
    refine ⟨fun hlt => absurd hlt (by omega), fun _ hcon => absurd hcon h4,
      fun _ _ => ⟨rfl, ?_⟩⟩
    rw [he]
    dsimp only
    have hw : ¬ specEnd a < specStart a := by
      intro hlt
      have hc : specFirstChunk a = specStart a - specEnd a := by
        unfold specFirstChunk; rw [if_pos hlt]
      have hv : specAvailable a = specStart a - specEnd a := by
        unfold specAvailable; rw [if_pos hlt]
      omega
    have hc : specFirstChunk a = (a.size : Int) - specEnd a := by
      unfold specFirstChunk; rw [if_neg hw]
    have hv : specAvailable a = ((a.size : Int) - specEnd a) + (specStart a - 8) := by
      unfold specAvailable; rw [if_neg hw]
    apply u32_cast
    · omega
    · omega

theorem claim_C3_witness :
    (mmap_write ⟨16, fun _ => 0, 8, 8⟩ [1, 2, 3]).1 = .ok [(8, 3)] ∧
    ([(8, 3)] : List (Int × Int)) = [(specEnd ⟨16, fun _ => 0, 8, 8⟩, 3)] ∧
    (((mmap_write ⟨16, fun _ => 0, 8, 8⟩ [1, 2, 3]).2.2.dataEnd : Nat) : Int) =
      specEnd ⟨16, fun _ => 0, 8, 8⟩ + 3 := by
  have h3 : (mmap_write ⟨16, fun _ => 0, 8, 8⟩ [1, 2, 3]).1 = .ok [(8, 3)] := by rfl
  have h := (claim_C3 ⟨16, fun _ => 0, 8, 8⟩ [1, 2, 3] [(8, 3)]
    (by norm_num) (by norm_num) h3).1 (by decide)
  exact ⟨h3, h.1, h.2⟩

/-! ### Claim C5: no-overlap invariant of the live descriptors -/

lemma chain_le {a b : Int} {ds : List (List (Int × Int))} (h : chain a b ds) :
    a ≤ b := by
  induction h with
  | nil => exact le_refl _
  | cons a b l ds h0 _ ih => omega

lemma chain_snoc {a b : Int} {ds : List (List (Int × Int))} (h : chain a b ds)
    (l : Int) (h0 : 0 ≤ l) :
    chain a (b + l) (ds ++ [[(b, l)]]) := by
  induction h with
  | nil a => exact chain.cons a (a + l) l [] h0 (chain.nil (a + l))
  | cons a c l0 ds h1 h2 ih => exact chain.cons a (c + l) l0 _ h1 ih

lemma chain_nil_inv {a b : Int} (h : chain a b []) : a = b := by
  cases h; rfl

lemma chain_cons_inv {a b : Int} {d : List (Int × Int)}
    {ds : List (List (Int × Int))} (h : chain a b (d :: ds)) :
    ∃ l, 0 ≤ l ∧ d = [(a, l)] ∧ chain (a + l) b ds := by
  cases h with
  | cons a b l ds h0 h1 => exact ⟨l, h0, rfl, h1⟩

lemma chain_bounds {a b : Int} {ds : List (List (Int × Int))} (h : chain a b ds) :
    ∀ p ∈ ds.flatten, a ≤ p.1 ∧ p.1 + p.2 ≤ b := by
  induction h with
  | nil => intro p hp; simp at hp
  | cons a b l ds h0 h1 ih =>
      intro p hp
      simp only [List.flatten_cons, List.cons_append, List.nil_append,
        List.mem_cons] at hp
      rcases hp with rfl | hp
      · exact ⟨le_refl _, chain_le h1⟩
      · have := ih p hp
        omega

lemma chain_ordered {a b : Int} {ds : List (List (Int × Int))} (h : chain a b ds) :
    ds.flatten.Pairwise (fun p q => p.1 + p.2 ≤ q.1) := by
  induction h with
  | nil => simp
  | cons a b l ds h0 h1 ih =>
      simp only [List.flatten_cons, List.cons_append, List.nil_append]
      refine List.Pairwise.cons ?_ ih
      intro q hq
      exact (chain_bounds h1 q hq).1

lemma specStart_wr (a : MmapArea) (b : Int → Nat) (de : Nat) :
    specStart { a with buf := b, dataEnd := de } = specStart a := rfl

lemma specEnd_u32 (a : MmapArea) (b : Int → Nat) (v : Int)
    (h0 : 8 ≤ v) (h1 : v < 2 ^ 32) :
    specEnd { a with buf := b, dataEnd := u32 v } = v := by
  unfold specEnd
  dsimp only
  rw [u32_cast v (by omega) h1]
  exact max_eq_right h0

lemma specStart_u32 (a : MmapArea) (v : Int) (h0 : 8 ≤ v) (h1 : v < 2 ^ 32) :
    specStart { a with dataStart := u32 v } = v := by
  unfold specStart
  dsimp only
  rw [u32_cast v (by omega) h1]
  exact max_eq_right h0

lemma specEnd_ds (a : MmapArea) (ds : Nat) :
    specEnd { a with dataStart := ds } = specEnd a := rfl

lemma specFirstChunk_wrapped (a : MmapArea) (h : specEnd a < specStart a) :
    specFirstChunk a = specStart a - specEnd a := by
  unfold specFirstChunk; rw [if_pos h]

lemma specFirstChunk_straight (a : MmapArea) (h : ¬ specEnd a < specStart a) :
    specFirstChunk a = (a.size : Int) - specEnd a := by
  unfold specFirstChunk; rw [if_neg h]

lemma specAvailable_wrapped (a : MmapArea) (h : specEnd a < specStart a) :
    specAvailable a = specStart a - specEnd a := by
  unfold specAvailable; rw [if_pos h]

lemma specAvailable_straight (a : MmapArea) (h : ¬ specEnd a < specStart a) :
    specAvailable a = ((a.size : Int) - specEnd a) + (specStart a - 8) := by
  unfold specAvailable; rw [if_neg h]

lemma step_inv {st st' : RingState} (hs : Step st st') (hI : Inv st) : Inv st' := by
  obtain ⟨h8, h32, hform⟩ := hI
  have hS8 : (8 : Int) ≤ specStart st.area := le_max_left _ _
  have hE8 : (8 : Int) ≤ specEnd st.area := le_max_left _ _
  have hNI : ((2 : Int) ^ 32) = ((2 ^ 32 : Nat) : Int) := by norm_num
  have h32I : (st.area.size : Int) ≤ 2 ^ 32 := by exact_mod_cast h32
  have h8I : (8 : Int) < (st.area.size : Int) := by exact_mod_cast h8
  have hlnn : ∀ data : List Nat, (0 : Int) ≤ (data.length : Int) :=
    fun data => Int.natCast_nonneg _
  cases hs with
  | write data chunks h =>
      rcases (mmap_write_cases st.area data).2 with
        ⟨h1, he⟩ | ⟨h1, h2, he⟩ | ⟨h1, h2, h3, he⟩ | ⟨h1, h2, h3, h4, he⟩ |
        ⟨h1, h2, h3, h4, he⟩
      · rw [he] at h; cases h
      · rw [he] at h; cases h
      · -- contiguous write at `end`
        rw [he] at h; injection h with h; subst h
        rw [he]
        rcases hform with ⟨hch, hlt⟩ | ⟨x, ds1, ds2, hl, hch1, hxN, hch2, hne, hes⟩ |
          ⟨x, l1, l2, ds1, ds2, hl, hch1, hxN, hl1, hl2, hxl1, hch2, hes⟩
        · -- form A stays form A
          have hw : ¬ specEnd st.area < specStart st.area := not_lt.mpr (chain_le hch)
          have hc := specFirstChunk_straight st.area hw
          have hb1 : specEnd st.area + (data.length : Int) < 2 ^ 32 := by omega
          refine ⟨h8, h32, Or.inl ⟨?_, ?_⟩⟩
          · rw [specStart_wr, specEnd_u32 _ _ _ (by omega) hb1]
            exact chain_snoc hch _ (hlnn data)
          · rw [specEnd_u32 _ _ _ (by omega) hb1]
            dsimp only
            omega
        · -- form Br stays form Br
          have hc := specFirstChunk_wrapped st.area hes
          have hsx : specStart st.area ≤ x := chain_le hch1
          have hb1 : specEnd st.area + (data.length : Int) < 2 ^ 32 := by omega
          refine ⟨h8, h32, Or.inr (Or.inl
            ⟨x, ds1, ds2 ++ [[(specEnd st.area, (data.length : Int))]], ?_, ?_, ?_, ?_, ?_, ?_⟩)⟩
          · dsimp only
            rw [hl, List.append_assoc]
          · rw [specStart_wr]; exact hch1
          · dsimp only; exact hxN
          · rw [specEnd_u32 _ _ _ (by omega) hb1]
            exact chain_snoc hch2 _ (hlnn data)
          · simp
          · rw [specStart_wr, specEnd_u32 _ _ _ (by omega) hb1]
            omega
        · -- form Bs stays form Bs
          have hc := specFirstChunk_wrapped st.area hes
          have hsx : specStart st.area ≤ x := chain_le hch1
          have hb1 : specEnd st.area + (data.length : Int) < 2 ^ 32 := by omega
          refine ⟨h8, h32, Or.inr (Or.inr
            ⟨x, l1, l2, ds1, ds2 ++ [[(specEnd st.area, (data.length : Int))]],
              ?_, ?_, ?_, hl1, hl2, ?_, ?_, ?_⟩)⟩
          · dsimp only
            rw [hl]
            simp [List.append_assoc]
          · rw [specStart_wr]; exact hch1
          · dsimp only; exact hxN
          · dsimp only; exact hxl1
          · rw [specEnd_u32 _ _ _ (by omega) hb1]
            exact chain_snoc hch2 _ (hlnn data)
          · rw [specStart_wr, specEnd_u32 _ _ _ (by omega) hb1]
            omega
      · -- restart write at offset 8: only possible in the unwrapped form A
        rw [he] at h; injection h with h; subst h
        rw [he]
        rcases hform with ⟨hch, hlt⟩ | ⟨x, ds1, ds2, hl, hch1, hxN, hch2, hne, hes⟩ |
          ⟨x, l1, l2, ds1, ds2, hl, hch1, hxN, hl1, hl2, hxl1, hch2, hes⟩
        · have hw : ¬ specEnd st.area < specStart st.area := not_lt.mpr (chain_le hch)
          have hb1 : (8 : Int) + (data.length : Int) < 2 ^ 32 := by
            have := h4.2.2
            omega
          refine ⟨h8, h32, Or.inr (Or.inl
            ⟨specEnd st.area, st.live, [[(8, (data.length : Int))]], rfl, ?_, ?_, ?_, ?_, ?_⟩)⟩
          · rw [specStart_wr]; exact hch
          · dsimp only; exact hlt
          · rw [specEnd_u32 _ _ _ (by omega) hb1]
            exact chain.cons 8 (8 + (data.length : Int)) _ [] (hlnn data)
              (chain.nil _)
          · simp
          · rw [specStart_wr, specEnd_u32 _ _ _ (by omega) hb1]
            have := h4.2.2
            omega
        · exfalso
          have hc := specFirstChunk_wrapped st.area hes
          have hv := specAvailable_wrapped st.area hes
          omega
        · exfalso
          have hc := specFirstChunk_wrapped st.area hes
          have hv := specAvailable_wrapped st.area hes
          omega
      · -- split write: only possible in the unwrapped form A
        rw [he] at h; injection h with h; subst h
        rw [he]
        rcases hform with ⟨hch, hlt⟩ | ⟨x, ds1, ds2, hl, hch1, hxN, hch2, hne, hes⟩ |
          ⟨x, l1, l2, ds1, ds2, hl, hch1, hxN, hl1, hl2, hxl1, hch2, hes⟩
        · have hw : ¬ specEnd st.area < specStart st.area := not_lt.mpr (chain_le hch)
          have hc := specFirstChunk_straight st.area hw
          have hv := specAvailable_straight st.area hw
          have hl2nn : (0 : Int) ≤ (data.length : Int) - specFirstChunk st.area := by omega
          have hlow : 8 + ((data.length : Int) - specFirstChunk st.area) <
              specStart st.area := by omega
          have hb1 : 8 + ((data.length : Int) - specFirstChunk st.area) < 2 ^ 32 := by
            have : specStart st.area ≤ specEnd st.area := chain_le hch
            omega
          refine ⟨h8, h32, Or.inr (Or.inr
            ⟨specEnd st.area, specFirstChunk st.area,
              (data.length : Int) - specFirstChunk st.area, st.live, [],
              ?_, ?_, ?_, ?_, hl2nn, ?_, ?_, ?_⟩)⟩
          · rfl
          · rw [specStart_wr]; exact hch
          · dsimp only; exact hlt
          · omega
          · dsimp only; omega
          · rw [specEnd_u32 _ _ _ (by omega) hb1]
            exact chain.nil _
          · rw [specStart_wr, specEnd_u32 _ _ _ (by omega) hb1]
            exact hlow
        · exfalso
          have hc := specFirstChunk_wrapped st.area hes
          have hv := specAvailable_wrapped st.area hes
          omega
        · exfalso
          have hc := specFirstChunk_wrapped st.area hes
          have hv := specAvailable_wrapped st.area hes
          omega
  | release d rest hlive =>
      rcases hform with ⟨hch, hlt⟩ | ⟨x, ds1, ds2, hl, hch1, hxN, hch2, hne, hes⟩ |
        ⟨x, l1, l2, ds1, ds2, hl, hch1, hxN, hl1, hl2, hxl1, hch2, hes⟩
      · -- form A: release the oldest (single-pair) descriptor
        rw [hlive] at hch
        obtain ⟨l, hl0, hde, hch2⟩ := chain_cons_inv hch
        have hle : specStart st.area + l ≤ specEnd st.area := chain_le hch2
        rw [hde]
        rw [show (mmap_read st.area [(specStart st.area, l)]).2 =
          { st.area with dataStart := u32 (specStart st.area + l) } from rfl]
        refine ⟨h8, h32, Or.inl ⟨?_, ?_⟩⟩
        · rw [specStart_u32 _ _ (by omega) (by omega), specEnd_ds]
          exact hch2
        · rw [specEnd_ds]
          dsimp only
          exact hlt
      · -- form Br
        have hsx : specStart st.area ≤ x := chain_le hch1
        rw [hlive] at hl
        cases ds1 with
        | nil =>
            have hsx2 : specStart st.area = x := chain_nil_inv hch1
            simp only [List.nil_append] at hl
            rw [← hl] at hch2
            obtain ⟨l, hl0, hde, hch3⟩ := chain_cons_inv hch2
            have hle : 8 + l ≤ specEnd st.area := chain_le hch3
            rw [hde]
            rw [show (mmap_read st.area [((8 : Int), l)]).2 =
              { st.area with dataStart := u32 (8 + l) } from rfl]
            refine ⟨h8, h32, Or.inl ⟨?_, ?_⟩⟩
            · rw [specStart_u32 _ _ (by omega) (by omega), specEnd_ds]
              exact hch3
            · rw [specEnd_ds]
              dsimp only
              omega
        | cons d1 ds1p =>
            rw [List.cons_append] at hl
            injection hl with hd ht
            rw [← hd] at hch1
            obtain ⟨l, hl0, hde, hch3⟩ := chain_cons_inv hch1
            have hle : specStart st.area + l ≤ x := chain_le hch3
            rw [hde]
            rw [show (mmap_read st.area [(specStart st.area, l)]).2 =
              { st.area with dataStart := u32 (specStart st.area + l) } from rfl]
            refine ⟨h8, h32, Or.inr (Or.inl
              ⟨x, ds1p, ds2, ?_, ?_, ?_, ?_, hne, ?_⟩)⟩
            · dsimp only; exact ht
            · rw [specStart_u32 _ _ (by omega) (by omega)]
              exact hch3
            · dsimp only; exact hxN
            · rw [specEnd_ds]; exact hch2
            · rw [specStart_u32 _ _ (by omega) (by omega), specEnd_ds]
              omega
      · -- form Bs
        have hsx : specStart st.area ≤ x := chain_le hch1
        have hle2 : 8 + l2 ≤ specEnd st.area := chain_le hch2
        rw [hlive] at hl
        cases ds1 with
        | nil =>
            have hsx2 : specStart st.area = x := chain_nil_inv hch1
            simp only [List.nil_append] at hl
            injection hl with hd ht
            rw [hd]
            rw [mmap_read_two]
            dsimp only
            refine ⟨h8, h32, Or.inl ⟨?_, ?_⟩⟩
            · rw [specStart_u32 _ _ (by omega) (by omega), specEnd_ds, ht]
              exact hch2
            · rw [specEnd_ds]
              dsimp only
              omega
        | cons d1 ds1p =>
            rw [List.cons_append] at hl
            injection hl with hd ht
            rw [← hd] at hch1
            obtain ⟨l, hl0, hde, hch3⟩ := chain_cons_inv hch1
            have hle : specStart st.area + l ≤ x := chain_le hch3
            rw [hde]
            rw [show (mmap_read st.area [(specStart st.area, l)]).2 =
              { st.area with dataStart := u32 (specStart st.area + l) } from rfl]
            refine ⟨h8, h32, Or.inr (Or.inr
              ⟨x, l1, l2, ds1p, ds2, ?_, ?_, ?_, hl1, hl2, hxl1, ?_, ?_⟩)⟩
            · dsimp only; exact ht
            · rw [specStart_u32 _ _ (by omega) (by omega)]
              exact hch3
            · dsimp only; exact hxN
            · rw [specEnd_ds]; exact hch2
            · rw [specStart_u32 _ _ (by omega) (by omega), specEnd_ds]
              omega


lemma inv_conclusion (st : RingState) (hI : Inv st) :
    (∀ p ∈ st.live.flatten, 8 ≤ p.1 ∧ p.1 + p.2 ≤ (st.area.size : Int)) ∧
    st.live.flatten.Pairwise (fun p q => p.1 + p.2 ≤ q.1 ∨ q.1 + q.2 ≤ p.1) := by
  obtain ⟨h8, h32, hform⟩ := hI
  have hS8 : (8 : Int) ≤ specStart st.area := le_max_left _ _
  have hE8 : (8 : Int) ≤ specEnd st.area := le_max_left _ _
  rcases hform with ⟨hch, hlt⟩ | ⟨x, ds1, ds2, hl, hch1, hxN, hch2, hne, hes⟩ |
    ⟨x, l1, l2, ds1, ds2, hl, hch1, hxN, hl1, hl2, hxl1, hch2, hes⟩
  · constructor
    · intro p hp
      have := chain_bounds hch p hp
      omega
    · exact (chain_ordered hch).imp (fun h => Or.inl h)
  · rw [hl]
    have hsx : specStart st.area ≤ x := chain_le hch1
    have h8e : (8 : Int) ≤ specEnd st.area := hE8
    rw [List.flatten_append]
    constructor
    · intro p hp
      rw [List.mem_append] at hp
      rcases hp with hp | hp
      · have := chain_bounds hch1 p hp
        omega
      · have := chain_bounds hch2 p hp
        omega
    · rw [List.pairwise_append]
      refine ⟨(chain_ordered hch1).imp (fun h => Or.inl h),
        (chain_ordered hch2).imp (fun h => Or.inl h), ?_⟩
      intro p hp q hq
      have h1 := chain_bounds hch1 p hp
      have h2 := chain_bounds hch2 q hq
      right
      omega
  · rw [hl]
    have hsx : specStart st.area ≤ x := chain_le hch1
    have h2e : 8 + l2 ≤ specEnd st.area := chain_le hch2
    rw [List.flatten_append]
    have hmid : ([(x, l1), (8, l2)] :: ds2).flatten =
        (x, l1) :: (8, l2) :: ds2.flatten := by simp
    rw [hmid]
    constructor
    · intro p hp
      rw [List.mem_append] at hp
      rcases hp with hp | hp
      · have := chain_bounds hch1 p hp
        omega
      · rcases List.mem_cons.mp hp with rfl | hp
        · refine ⟨by dsimp; omega, by dsimp; omega⟩
        · rcases List.mem_cons.mp hp with rfl | hp
          · refine ⟨by dsimp; omega, by dsimp; omega⟩
          · have := chain_bounds hch2 p hp
            omega
    · rw [List.pairwise_append]
      refine ⟨(chain_ordered hch1).imp (fun h => Or.inl h), ?_, ?_⟩
      · refine List.Pairwise.cons ?_ (List.Pairwise.cons ?_
          ((chain_ordered hch2).imp (fun h => Or.inl h)))
        · intro q hq
          rcases List.mem_cons.mp hq with rfl | hq
          · right; dsimp; omega
          · have := chain_bounds hch2 q hq
            right; dsimp; omega
        · intro q hq
          have := chain_bounds hch2 q hq
          left; dsimp; omega
      · intro p hp q hq
        have h1 := chain_bounds hch1 p hp
        rcases List.mem_cons.mp hq with rfl | hq
        · left; dsimp; omega
        · rcases List.mem_cons.mp hq with rfl | hq
          · right; dsimp; omega
          · have h2 := chain_bounds hch2 q hq
            right; omega

/-- C5 (confirmed): along any write/release sequence respecting the
single-producer/single-consumer contract (writes append the descriptor of
a successful `mmap_write`; releases consume the oldest live descriptor via
`mmap_read`), every live `(offset, length)` pair satisfies `8 ≤ offset`
and `offset + length ≤ N` — so it never touches the 8-byte header — and
the live pairs are pairwise disjoint. -/
theorem claim_C5 (N : Nat) (buf : Int → Nat) (st : RingState)
    (h8 : 8 < N) (h32 : N ≤ 2 ^ 32) (hr : Reachable N buf st) :
    (∀ p ∈ st.live.flatten, 8 ≤ p.1 ∧ p.1 + p.2 ≤ (st.area.size : Int)) ∧
    st.live.flatten.Pairwise (fun p q => p.1 + p.2 ≤ q.1 ∨ q.1 + q.2 ≤ p.1) := by
  have hInv : Inv st := by
    unfold Reachable at hr
    induction hr with
    | refl =>
        have h1 : specStart (⟨N, buf, 0, 0⟩ : MmapArea) = 8 := by
          unfold specStart; simp
        have h2 : specEnd (⟨N, buf, 0, 0⟩ : MmapArea) = 8 := by
          unfold specEnd; simp
        refine ⟨h8, h32, Or.inl ⟨?_, ?_⟩⟩
        · show chain (specStart ⟨N, buf, 0, 0⟩) (specEnd ⟨N, buf, 0, 0⟩) []
          rw [h1, h2]
          exact chain.nil 8
        · show specEnd (⟨N, buf, 0, 0⟩ : MmapArea) < (N : Int)
          rw [h2]
          exact_mod_cast h8
    | tail hab hbc ih => exact step_inv hbc ih
  exact inv_conclusion st hInv

theorem claim_C5_witness :
    (∀ p ∈ (⟨(mmap_write ⟨16, fun _ => 0, 0, 0⟩ [1, 2, 3]).2.2,
        [] ++ [[((8 : Int), (3 : Int))]]⟩ : RingState).live.flatten,
      8 ≤ p.1 ∧ p.1 + p.2 ≤
        (((⟨(mmap_write ⟨16, fun _ => 0, 0, 0⟩ [1, 2, 3]).2.2,
          [] ++ [[((8 : Int), (3 : Int))]]⟩ : RingState).area.size : Nat) : Int)) ∧
    (⟨(mmap_write ⟨16, fun _ => 0, 0, 0⟩ [1, 2, 3]).2.2,
        [] ++ [[((8 : Int), (3 : Int))]]⟩ : RingState).live.flatten.Pairwise
      (fun p q => p.1 + p.2 ≤ q.1 ∨ q.1 + q.2 ≤ p.1) := by
  exact claim_C5 16 (fun _ => 0) _ (by norm_num) (by norm_num)
    (Relation.ReflTransGen.single
      (Step.write ⟨⟨16, fun _ => 0, 0, 0⟩, []⟩ [1, 2, 3] [(8, 3)] (by rfl)))

theorem claim_C6_witness :
    (mmap_read (⟨16, fun _ => 0, 0, 0⟩ : MmapArea) [(8, 3)]).2 =
      { (⟨16, fun _ => 0, 0, 0⟩ : MmapArea) with
          dataStart := u32 (lastPairEnd [(8, 3)]) } := by
  exact claim_C6.1 ⟨16, fun _ => 0, 0, 0⟩ [(8, 3)] (by decide)

end XpraMmap
